import Mathlib

/-!
Verification of the podcast-sponsorblocker core against its specification.

The definitions below are shallow embeddings of the JavaScript source:
  - `mergeAdSegments`, `absorbSeg` embed `mergeAdSegments` of detect-ads.js;
  - `splitLoop` / `splitIntoChunks` embed `splitIntoChunks` of detect-ads.js;
  - `parseUrl` / `serializeUrl` / `normalizeUrl` embed `normalizeUrl` of
    database.js over a model of the WHATWG URL parser;
  - `splitAudioIfNeeded` embeds split-audio.js;
  - `ServerState`, `analyzeServer`, `analyzePart0`, `processPost`,
    `runPipeline` embed the HTTP handlers of server.js and of the unnamed
    server variant (src/unnamed/part_000);
  - `opMerge` re-embeds `mergeAdSegments` at the level of an explicit
    object heap, to settle the frame property of the in-place mutations.
-/

/-! ## Shared string constants (all literal strings used by the model) -/

def strEmpty : String := ""

def sepStr : String := " / "

def spaceStr : String := " "

/-! ## Ad segments and `mergeAdSegments` (detect-ads.js, lines 141-162)

An `AdSeg` is one classifier-produced advertisement segment: integer
millisecond bounds, a category label and a free-text description. -/

structure AdSeg where
  start_ms : Int
  end_ms : Int
  category : String
  description : String
deriving DecidableEq, Repr

/-- Boolean prefix test on character lists. -/
def startsWithB : List Char → List Char → Bool
  | [], _ => true
  | _ :: _, [] => false
  | a :: as, b :: bs => a == b && startsWithB as bs

/-- Boolean contiguous-occurrence test on character lists: models
JavaScript `String.prototype.includes`. -/
def containsB (needle : List Char) : List Char → Bool
  | [] => startsWithB needle []
  | c :: cs => startsWithB needle (c :: cs) || containsB needle cs

/-- `hay.includes(needle)` for strings. -/
def strIncludes (hay needle : String) : Bool := containsB needle.toList hay.toList

/-- One absorption of candidate `c` into the open merged segment `o`:
the JS loop body `last.end_ms = Math.max(last.end_ms, current.end_ms)`
plus the guarded description concatenation. -/
def absorbSeg (o c : AdSeg) : AdSeg :=
  { start_ms := o.start_ms
    end_ms := max o.end_ms c.end_ms
    category := o.category
    description :=
      if c.description ≠ strEmpty ∧ strIncludes o.description c.description = false then
        o.description ++ sepStr ++ c.description
      else o.description }

/-- The sort key of `[...allSegments].sort((a, b) => a.start_ms - b.start_ms)`. -/
def segLE (a b : AdSeg) : Prop := a.start_ms ≤ b.start_ms

instance : DecidableRel segLE := fun a b => Int.decLe a.start_ms b.start_ms

instance : IsTotal AdSeg segLE := ⟨fun a b => Int.le_total a.start_ms b.start_ms⟩

instance : IsTrans AdSeg segLE := ⟨fun _ _ _ h h' => Int.le_trans h h'⟩

/-- The merge walk of `mergeAdSegments`: `o` is the mutable last element of
`merged`, the list argument the remaining sorted candidates.  Returns the
closed (pushed-and-finished) segments and the still-open last segment. -/
def mergeStep (gap : Int) : AdSeg → List AdSeg → List AdSeg × AdSeg
  | o, [] => ([], o)
  | o, c :: cs =>
    if c.start_ms ≤ o.end_ms + gap ∧ c.category = o.category then
      mergeStep gap (absorbSeg o c) cs
    else
      let p := mergeStep gap c cs
      (o :: p.1, p.2)

/-- `mergeAdSegments(allSegments, gapThresholdMs)` of detect-ads.js:
sort a copy by `start_ms` (JS sort is stable; insertion sort is the stable
sort), then coalesce runs of same-category, gap-close segments. -/
def mergeAdSegments (allSegments : List AdSeg) (gapThresholdMs : Int) : List AdSeg :=
  match List.insertionSort segLE allSegments with
  | [] => []
  | s :: rest =>
    let p := mergeStep gapThresholdMs s rest
    p.1 ++ [p.2]

/-- Separation between two consecutive merge outputs: if they share one
category, the later starts strictly beyond the earlier's end plus gap. -/
def sepBy (gap : Int) (a b : AdSeg) : Prop :=
  a.category = b.category → a.end_ms + gap < b.start_ms

/-- The merge loop absorbs nothing at this pair. -/
def noAbsorb (gap : Int) (a b : AdSeg) : Prop :=
  ¬ (b.start_ms ≤ a.end_ms + gap ∧ b.category = a.category)

/-- The full output of one `mergeStep` call: closed segments, then the
final open one (the JS `merged` array when the loop finishes). -/
def mergeOut (gap : Int) (o : AdSeg) (l : List AdSeg) : List AdSeg :=
  (mergeStep gap o l).1 ++ [(mergeStep gap o l).2]

/-! ## The identity normalizer (database.js `normalizeUrl`, lines 102-110)

`normalizeUrl` delegates parsing to the WHATWG `URL` class, clears the
query (`u.search = ''`) and serializes back; parse failure falls back to
the raw input.  The `URL` class is an external collaborator; `parseUrl` /
`serializeUrl` model it, restricted to authority-based URLs
(`scheme://host...`, the only shape the server receives): strings of any
other shape are parse failures and take the fallback path.  Component
canonicalization (lowercasing, percent-encoding) is not modelled; the
model keeps components verbatim, which preserves the fixed-point
behaviour of the real serializer. -/

/-- Split a character list at the first character satisfying `stop`:
returns (the prefix before it, the rest starting with it). -/
def breakAt (stop : Char → Bool) : List Char → List Char × List Char
  | [] => ([], [])
  | c :: cs =>
    if stop c then ([], c :: cs)
    else
      let p := breakAt stop cs
      (c :: p.1, p.2)

/-- Characters the URL model admits in a scheme. -/
def isSchemeChar (c : Char) : Bool := c.isAlpha || c.isDigit || c == '+' || c == '-' || c == '.'

/-- Characters ending the authority component. -/
def authStop (c : Char) : Bool := c == '/' || c == '?' || c == '#'

/-- Characters ending the path component. -/
def pathStop (c : Char) : Bool := c == '?' || c == '#'

/-- Parsed URL: scheme, authority (host and optional port), path, query
(present or not, without the leading mark) and fragment. -/
structure UrlParts where
  scheme : List Char
  authority : List Char
  path : List Char
  query : Option (List Char)
  fragment : Option (List Char)
deriving DecidableEq, Repr

/-- Stage 4 of the URL parse: after the query text `q`, an optional
fragment (argument: what followed the query text). -/
def parseQuery (scheme auth path q : List Char) : List Char → Option UrlParts
  | '#' :: f => some ⟨scheme, auth, path, some q, some f⟩
  | _ => some ⟨scheme, auth, path, some q, none⟩

/-- Stage 3 of the URL parse: after the path, an optional query and
fragment (argument: what followed the path). -/
def parseAfterPath (scheme auth path : List Char) : List Char → Option UrlParts
  | [] => some ⟨scheme, auth, path, none, none⟩
  | '?' :: r5 =>
    parseQuery scheme auth path (breakAt (fun c => c == '#') r5).1
      (breakAt (fun c => c == '#') r5).2
  | '#' :: f => some ⟨scheme, auth, path, none, some f⟩
  | _ => none

/-- Stage 2 of the URL parse: split the path off `rest3`. -/
def parsePath (scheme auth rest3 : List Char) : Option UrlParts :=
  parseAfterPath scheme auth (breakAt pathStop rest3).1 (breakAt pathStop rest3).2

/-- Stage 1 of the URL parse: split the authority off `rest2`; an empty
authority is a parse failure. -/
def parseAuth (scheme rest2 : List Char) : Option UrlParts :=
  if (breakAt authStop rest2).1 = [] then none
  else parsePath scheme (breakAt authStop rest2).1 (breakAt authStop rest2).2

/-- Stage 0 of the URL parse: everything after the scheme must start
`://`, and the scheme must be nonempty scheme characters. -/
def parseFromRest (scheme : List Char) : List Char → Option UrlParts
  | ':' :: '/' :: '/' :: rest2 =>
    if scheme = [] ∨ scheme.all isSchemeChar = false then none
    else parseAuth scheme rest2
  | _ => none

/-- Model of `new URL(s)`: `none` models the constructor throwing. -/
def parseUrl (s : List Char) : Option UrlParts :=
  parseFromRest (breakAt (fun c => c == ':') s).1 (breakAt (fun c => c == ':') s).2

/-- Model of `u.toString()`. -/
def serializeUrl (p : UrlParts) : List Char :=
  p.scheme ++ ':' :: '/' :: '/' :: p.authority ++ p.path
    ++ (match p.query with
        | none => []
        | some q => '?' :: q)
    ++ (match p.fragment with
        | none => []
        | some f => '#' :: f)

/-- `u.search = ''`. -/
def clearQuery (p : UrlParts) : UrlParts :=
  { p with query := none }

/-- `normalizeUrl(url)` of database.js: parse, clear the query, serialize;
on parse failure return the input unchanged. -/
def normalizeUrl (url : String) : String :=
  match parseUrl url.toList with
  | none => url
  | some p => String.mk (serializeUrl (clearQuery p))

/-- Two locators differ at most in their query string: both parse, and
all components other than the query agree. -/
def sameUpToQuery (u v : String) : Bool :=
  match parseUrl u.toList, parseUrl v.toList with
  | some a, some b =>
    a.scheme == b.scheme && a.authority == b.authority &&
      a.path == b.path && a.fragment == b.fragment
  | _, _ => false

/-- Well-formedness of parsed components, as the parser guarantees it. -/
def UrlWf (p : UrlParts) : Prop :=
  p.scheme ≠ [] ∧ p.scheme.all isSchemeChar = true ∧
  p.authority ≠ [] ∧ (∀ c ∈ p.authority, authStop c = false) ∧
  (∀ c ∈ p.path, pathStop c = false) ∧
  (p.path = [] ∨ ∃ rest, p.path = '/' :: rest)

/-! ## The transcript window planner (detect-ads.js `splitIntoChunks`,
test-ad-detection.js context lines 114-136)

Times are integer seconds (`TSeg.stop` models the JS field `end`, a Lean
keyword).  The JS numbers are IEEE doubles; every value the planner's
claims touch is a whole number of seconds, so `Int` is the faithful
integer embedding. -/

structure TSeg where
  start : Int
  stop : Int
  text : String
deriving DecidableEq, Repr

structure Chunk where
  segments : List TSeg
  startTime : Int
  endTime : Int
deriving DecidableEq, Repr

/-- The `while (chunkStartTime < lastEnd)` loop of `splitIntoChunks`,
with explicit fuel; `none` models nontermination (never reached by the
wrapper's fuel when `overlapSec < chunkDurationSec`). -/
def splitLoop (segments : List TSeg) (chunkDurationSec overlapSec lastEnd : Int) :
    Nat → Int → Option (List Chunk)
  | 0, _ => none
  | fuel + 1, chunkStartTime =>
    if chunkStartTime < lastEnd then
      let chunkEndTime := chunkStartTime + chunkDurationSec
      let chunkSegments := segments.filter
        (fun seg => decide (chunkStartTime ≤ seg.start ∧ seg.start < chunkEndTime))
      if chunkSegments = [] then some []
      else if lastEnd ≤ chunkEndTime then
        some [⟨chunkSegments, chunkStartTime, chunkEndTime⟩]
      else
        (splitLoop segments chunkDurationSec overlapSec lastEnd fuel
            (chunkEndTime - overlapSec)).map
          (fun rest => ⟨chunkSegments, chunkStartTime, chunkEndTime⟩ :: rest)
    else some []

/-- Fuel that outlasts the loop when the step `chunkDurationSec -
overlapSec` is positive. -/
def splitFuel (lastEnd chunkDurationSec overlapSec : Int) : Nat :=
  (lastEnd / (max 1 (chunkDurationSec - overlapSec))).toNat + 2

/-- `splitIntoChunks(segments, chunkDurationSec, overlapSec)`: the JS
reads `segments[segments.length - 1].end` first (a crash on an empty
array, modelled as `none`). -/
def splitIntoChunks (segments : List TSeg) (chunkDurationSec overlapSec : Int) :
    Option (List Chunk) :=
  match segments.getLast? with
  | none => none
  | some lastSeg =>
    splitLoop segments chunkDurationSec overlapSec lastSeg.stop
      (splitFuel lastSeg.stop chunkDurationSec overlapSec) 0

/-! ## The audio splitter (split-audio.js `splitAudioIfNeeded`)

File-system and ffmpeg effects are abstracted: `sizeBytes` is what
`stat` returns, `totalDuration` what `ffprobe` would report, `probed`
records whether ffprobe was invoked, `created` which chunk files ffmpeg
wrote.  Chunk file names collapse `join(dir, name_chunkI + ext)` to a
suffix on the input path (the claims never inspect the name's shape). -/

def chunkSuffix : String := "_chunk"

def chunkName (inputPath : String) (i : Nat) : String :=
  inputPath ++ chunkSuffix ++ toString i

structure SplitAudioResult where
  chunks : List String
  probed : Bool
  created : List String
deriving DecidableEq, Repr

/-- The `while (startTime < totalDuration)` chunk-cutting loop. -/
def chunkLoop (inputPath : String) (totalDuration : Int) :
    Nat → Int → Nat → Option (List String)
  | 0, _, _ => none
  | fuel + 1, startTime, chunkIndex =>
    if startTime < totalDuration then
      (chunkLoop inputPath totalDuration fuel (startTime + 600) (chunkIndex + 1)).map
        (fun rest => chunkName inputPath chunkIndex :: rest)
    else some []

def chunkFuel (totalDuration : Int) : Nat := (totalDuration / 600).toNat + 2

/-- `splitAudioIfNeeded(inputPath, episodeDir)`: below the 24 MB limit
the input is returned as the only chunk, with no probe and no files
created; above it, 600-second chunks are cut (fuel is always sufficient
for the constant 600-second step; `getD` is never reached).  The JS
guard `stats.size / (1024*1024) <= MAX_FILE_SIZE_MB` is written
division-free, `sizeBytes ≤ 24*1024*1024`, its exact-arithmetic
equivalent. -/
def splitAudioIfNeeded (inputPath : String) (sizeBytes totalDuration : Int) :
    SplitAudioResult :=
  if sizeBytes ≤ 24 * (1024 * 1024) then ⟨[inputPath], false, []⟩
  else
    let cs := (chunkLoop inputPath totalDuration (chunkFuel totalDuration) 0 0).getD []
    ⟨cs, true, cs⟩

/-- The `finally` block of the /process pipeline (server.js lines
166-173): unlink the download, then every chunk that is not the
download.  Returns the list of deleted paths in deletion order. -/
def cleanupDeletions (downloadedFilePath : Option String) (audioChunks : List String) :
    List String :=
  (match downloadedFilePath with
   | some d => [d]
   | none => []) ++
    audioChunks.filter (fun chunk => decide (some chunk ≠ downloadedFilePath))

/-! ## The server (server.js and src/unnamed/part_000)

State: the podcasts table (`cache`), the requested_urls table
(`requested`, normalized keys; request counts and timestamps are not
modelled) and the in-memory `jobs` map as an insertion-ordered
association list.  Wall-clock values are passed in as parameters. -/

inductive JobStatus
  | running
  | done
  | error
deriving DecidableEq, Repr

/-- One entry of the `jobs` map; `errMsg` models the JS field `error`. -/
structure Job where
  status : JobStatus
  url : String
  startedAt : Nat
  finishedAt : Option Nat
  title : Option String
  errMsg : Option String
deriving DecidableEq, Repr

/-- One row of the podcasts table; `segments` models the JSON-stringified
payload (`cost_data` and timestamps are not modelled). -/
structure PodcastRow where
  url : String
  title : String
  segments : List AdSeg
deriving DecidableEq, Repr

/-- `getPodcastByUrl` of database.js: SELECT by the normalized url. -/
def getPodcastByUrl (cache : List PodcastRow) (url : String) : Option PodcastRow :=
  cache.find? (fun r => r.url == normalizeUrl url)

/-- `savePodcast` of database.js: upsert keyed by the normalized url;
ON CONFLICT the stored title is kept, only the segments are replaced. -/
def savePodcast (cache : List PodcastRow) (url title : String) (segments : List AdSeg) :
    List PodcastRow :=
  if cache.any (fun r => r.url == normalizeUrl url) then
    cache.map (fun r => if r.url == normalizeUrl url then { r with segments := segments } else r)
  else cache ++ [⟨normalizeUrl url, title, segments⟩]

/-- `trackRequestedUrl` of database.js (the request-count bump on
conflict is not modelled, only membership). -/
def trackRequestedUrl (requested : List String) (url : String) : List String :=
  if requested.contains (normalizeUrl url) then requested
  else requested ++ [normalizeUrl url]

/-- `deleteRequestedUrlByUrl` of database.js. -/
def deleteRequestedUrlByUrl (requested : List String) (url : String) : List String :=
  requested.filter (fun r => decide (r ≠ normalizeUrl url))

structure ServerState where
  cache : List PodcastRow
  requested : List String
  jobs : List (String × Job)
deriving DecidableEq, Repr

/-- `jobs.set(k, v)`: update in place if the key exists, else append. -/
def jobsSet : List (String × Job) → String → Job → List (String × Job)
  | [], k, v => [(k, v)]
  | p :: t, k, v => if p.1 = k then (k, v) :: t else p :: jobsSet t k v

/-- `jobs.get(k)`. -/
def jobsFind (jobs : List (String × Job)) (k : String) : Option Job :=
  (jobs.find? (fun p => p.1 == k)).map (fun p => p.2)

inductive AnalyzeResp
  | badRequest
  | whitelistedResp (hostName : String)
  | cachedResp (row : PodcastRow)
  | notAnalyzed (analyzing : Bool)
deriving DecidableEq, Repr

inductive ProcessResp
  | badRequest
  | alreadyProcessed (url title : String)
  | started (jobId : String)
deriving DecidableEq, Repr

/-- GET /analyze of server.js (lines 50-81): cache first, then track the
request, then scan the jobs map comparing the RAW url (`j.url === url`). -/
def analyzeServer (st : ServerState) (url : String) : AnalyzeResp × ServerState :=
  if url = strEmpty then (.badRequest, st)
  else
    match getPodcastByUrl st.cache url with
    | some row => (.cachedResp row, st)
    | none =>
      let st2 := { st with requested := trackRequestedUrl st.requested url }
      let runningJob := st.jobs.find?
        (fun j => decide (j.2.url = url ∧ j.2.status = JobStatus.running))
      (.notAnalyzed runningJob.isSome, st2)

/-- A whitelist entry; `matchS` models the JS field `match` (a Lean
keyword). -/
structure WlHost where
  name : String
  matchS : String
deriving DecidableEq, Repr

/-- `isWhitelisted` of part_000: first host whose `match` text occurs in
the url. -/
def isWhitelisted (hosts : List WlHost) (url : String) : Option WlHost :=
  hosts.find? (fun h => strIncludes url h.matchS)

/-- GET /analyze of src/unnamed/part_000 (lines 78-124): whitelist, then
cache, then track, then scan the jobs map comparing NORMALIZED urls (the
inline IIFE is the same algorithm as database.js `normalizeUrl`); a job
url that fails to parse falls back to the raw comparison `j.url === url`. -/
def analyzePart0 (wl : List WlHost) (st : ServerState) (url : String) :
    AnalyzeResp × ServerState :=
  if url = strEmpty then (.badRequest, st)
  else
    match isWhitelisted wl url with
    | some h => (.whitelistedResp h.name, st)
    | none =>
      match getPodcastByUrl st.cache url with
      | some row => (.cachedResp row, st)
      | none =>
        let st2 := { st with requested := trackRequestedUrl st.requested url }
        let normalizedUrl := normalizeUrl url
        let runningJob := st.jobs.find? (fun j =>
          match parseUrl j.2.url.toList with
          | some p => decide (String.mk (serializeUrl (clearQuery p)) = normalizedUrl ∧
              j.2.status = JobStatus.running)
          | none => decide (j.2.url = url ∧ j.2.status = JobStatus.running))
        (.notAnalyzed runningJob.isSome, st2)

/-- POST /process (server.js lines 93-114, identically part_000 lines
136-157 up to success-path bookkeeping): missing url, then cache lookup,
then unconditionally create a fresh running job — the jobs map is never
scanned for an in-flight run. -/
def processPost (st : ServerState) (url jobId : String) (now : Nat) :
    ProcessResp × ServerState :=
  if url = strEmpty then (.badRequest, st)
  else
    match getPodcastByUrl st.cache url with
    | some row => (.alreadyProcessed row.url row.title, st)
    | none =>
      (.started jobId,
        { st with jobs := jobsSet st.jobs jobId ⟨.running, url, now, none, none, none⟩ })

/-! ## The background pipeline of POST /process (server.js lines 117-175)

External collaborators (downloader, splitter, Whisper, GPT classifier)
are oracles supplied in a `PipelineEnv`; transcript-file writes are not
modelled (they touch no server state). -/

structure DlResult where
  filepath : String
  episodeDir : String
deriving DecidableEq, Repr

structure TranscriptionRes where
  text : String
  segments : List TSeg
deriving DecidableEq, Repr

instance {ε α : Type} [DecidableEq ε] [DecidableEq α] : DecidableEq (Except ε α) := fun a b =>
  match a, b with
  | .error e, .error f =>
    match decEq e f with
    | isTrue h => isTrue (h ▸ rfl)
    | isFalse h => isFalse fun hh => h (by injection hh)
  | .ok x, .ok y =>
    match decEq x y with
    | isTrue h => isTrue (h ▸ rfl)
    | isFalse h => isFalse fun hh => h (by injection hh)
  | .error _, .ok _ => isFalse (by intro hh; exact Except.noConfusion hh)
  | .ok _, .error _ => isFalse (by intro hh; exact Except.noConfusion hh)

structure PipelineEnv where
  download : Except String DlResult
  split : Except String (List String)
  transcribe : String → Except String TranscriptionRes
  detect : Except String (List AdSeg)

/-- The transcription loop: accumulate text and re-based segments,
advancing the offset by the constant 600 seconds per chunk; the first
failing chunk aborts with its message. -/
def transcribeChunks (transcribe : String → Except String TranscriptionRes) :
    List String → TranscriptionRes → Int → Except String TranscriptionRes
  | [], acc, _ => .ok acc
  | c :: cs, acc, timeOffset =>
    match transcribe c with
    | .error m => .error m
    | .ok t =>
      transcribeChunks transcribe cs
        ⟨acc.text ++ spaceStr ++ t.text,
          acc.segments ++ t.segments.map (fun s => ⟨s.start + timeOffset, s.stop + timeOffset, s.text⟩)⟩
        (timeOffset + 600)

/-- The try-block of the pipeline: download, split, transcribe each
chunk, classify; the first failure's message is the run's error. -/
def pipelineCore (env : PipelineEnv) : Except String (List String × List AdSeg) :=
  match env.download with
  | .error m => .error m
  | .ok _dl =>
    match env.split with
    | .error m => .error m
    | .ok chunks =>
      match transcribeChunks env.transcribe chunks ⟨strEmpty, []⟩ 0 with
      | .error m => .error m
      | .ok _full =>
        match env.detect with
        | .error m => .error m
        | .ok segs => .ok (chunks, segs)

/-- `url.split('/').pop().split('?')[0]`. -/
def titleOf (url : String) : String :=
  String.mk (breakAt (fun c => c == '?')
    ((url.toList.reverse.takeWhile (fun c => !(c == '/'))).reverse)).1

/-- The whole background run (server.js): on success write the cache and
finish the job as done; on any failure finish it as error carrying the
message, and write nothing else. -/
def runPipeline (st : ServerState) (jobId url : String) (env : PipelineEnv)
    (finTime : Nat) : ServerState :=
  let started := ((jobsFind st.jobs jobId).map Job.startedAt).getD 0
  match pipelineCore env with
  | .ok r =>
    { st with
      cache := savePodcast st.cache url (titleOf url) r.2
      jobs := jobsSet st.jobs jobId ⟨.done, url, started, some finTime, some (titleOf url), none⟩ }
  | .error m =>
    { st with jobs := jobsSet st.jobs jobId ⟨.error, url, started, some finTime, none, some m⟩ }

/-! ## Concrete inputs for scenarios, counterexamples and witnesses -/

def catSponsor : String := "sponsor"

def catEigen : String := "eigenwerbung"

def catSelfPromo : String := "self-promotion"

/-- The spec's merge scenario: two close sponsor reads and one distant
self-promotion segment. -/
def c6input : List AdSeg :=
  [⟨0, 5000, catSponsor, strEmpty⟩, ⟨4500, 9000, catSponsor, strEmpty⟩,
   ⟨20000, 25000, catSelfPromo, strEmpty⟩]

def c6expected : List AdSeg :=
  [⟨0, 9000, catSponsor, strEmpty⟩, ⟨20000, 25000, catSelfPromo, strEmpty⟩]

/-- A sponsor segment swallowing a later sponsor segment across an
intervening self-promotion segment: exhibits non-consecutive
same-category overlap in the merge output. -/
def c2cexInput : List AdSeg :=
  [⟨0, 100000, catSponsor, strEmpty⟩, ⟨10000, 20000, catEigen, strEmpty⟩,
   ⟨60000, 70000, catSponsor, strEmpty⟩]

/-- Transcript segments spanning [0, 1500] seconds with a start inside
each planned window: the spec's 1500 s / 600 s / 30 s scenario. -/
def c3segs : List TSeg :=
  [⟨0, 5, strEmpty⟩, ⟨600, 605, strEmpty⟩, ⟨1200, 1500, strEmpty⟩]

def urlA : String := "http://host.example/feed/episode.mp3?tok=A"

def urlB : String := "http://host.example/feed/episode.mp3?tok=B"

def jid1 : String := "job_1"

def jid2 : String := "job_2"

/-- A server state with one running job for `urlA`, an empty cache and
an empty requested list. -/
def st1 : ServerState := ⟨[], [], [(jid1, ⟨.running, urlA, 0, none, none, none⟩)]⟩

def msgBoom : String := "download failed"

/-- A pipeline whose download stage fails. -/
def env0 : PipelineEnv :=
  ⟨.error msgBoom, .ok [], fun _ => .ok ⟨strEmpty, []⟩, .ok []⟩

def mp3Path : String := "episode.mp3"

/-! ## Heap-level rerun of `mergeAdSegments` (frame property)

JavaScript objects are mutable references: `[...allSegments]` copies the
array of references (not the objects), `{...seg}` allocates a fresh
object with copied fields, and `last.end_ms = ...` writes through the
reference held in `merged`.  `opMerge` reruns `mergeAdSegments` over an
explicit heap of segment objects to settle that the function never
writes through its input references: fresh addresses start at the
allocation counter `n`, mutation happens only at addresses the merge
itself allocated. -/

abbrev Addr := Nat

/-- The mutable fields of one segment object. -/
structure SegFields where
  start_ms : Int
  end_ms : Int
  category : String
  description : String
deriving DecidableEq, Repr

/-- Heap read; `none` models a dangling reference. -/
def hGet : List (Addr × SegFields) → Addr → Option SegFields
  | [], _ => none
  | p :: t, a => if p.1 = a then some p.2 else hGet t a

/-- In-place object mutation: rebind the first occurrence of `a`. -/
def hSet : List (Addr × SegFields) → Addr → SegFields → List (Addr × SegFields)
  | [], _, _ => []
  | p :: t, a, v => if p.1 = a then (a, v) :: t else p :: hSet t a v

/-- Dereference with a default (never reached on well-formed inputs). -/
def fieldsAt (h : List (Addr × SegFields)) (a : Addr) : SegFields :=
  (hGet h a).getD ⟨0, 0, strEmpty, strEmpty⟩

/-- `absorbSeg` on raw fields. -/
def absorbF (o c : SegFields) : SegFields :=
  { start_ms := o.start_ms
    end_ms := max o.end_ms c.end_ms
    category := o.category
    description :=
      if c.description ≠ strEmpty ∧ strIncludes o.description c.description = false then
        o.description ++ sepStr ++ c.description
      else o.description }

/-- The merge loop over the heap: `lastA` is the address of the open
merged object, `front` the closed ones, `n` the next fresh address.
Absorption mutates the object at `lastA`; a push allocates a copy of the
current input object at `n`. -/
def opLoop (gap : Int) :
    List Addr → List (Addr × SegFields) → Nat → List Addr → Addr →
      List (Addr × SegFields) × Nat × List Addr
  | [], h, n, front, lastA => (h, n, front ++ [lastA])
  | c :: cs, h, n, front, lastA =>
    let cf := fieldsAt h c
    let lf := fieldsAt h lastA
    if cf.start_ms ≤ lf.end_ms + gap ∧ cf.category = lf.category then
      opLoop gap cs (hSet h lastA (absorbF lf cf)) n front lastA
    else
      opLoop gap cs ((n, cf) :: h) (n + 1) (front ++ [lastA]) n

/-- `[...allSegments].sort(...)`: sorting the copied array of references
by the pointed-to `start_ms` (the heap is not written). -/
def sortIds (h : List (Addr × SegFields)) (ids : List Addr) : List Addr :=
  List.insertionSort (fun i j => (fieldsAt h i).start_ms ≤ (fieldsAt h j).start_ms) ids

/-- `mergeAdSegments` over the heap: returns the final heap, the next
fresh address and the addresses of the merged output objects. -/
def opMerge (gap : Int) (input : List Addr) (h : List (Addr × SegFields)) (n : Nat) :
    List (Addr × SegFields) × Nat × List Addr :=
  match sortIds h input with
  | [] => (h, n, [])
  | s :: rest => opLoop gap rest ((n, fieldsAt h s) :: h) (n + 1) [] n

/-- The chaining the planner establishes between consecutive windows:
the next window starts at the previous end minus the overlap. -/
def chainStep (ov : Int) (a b : Chunk) : Prop := b.startTime = a.endTime - ov

/-- Chunks the planner yields on the 1500 s / 600 s / 30 s scenario. -/
def c3chunks : List Chunk :=
  [⟨[⟨0, 5, strEmpty⟩], 0, 600⟩, ⟨[⟨600, 605, strEmpty⟩], 570, 1170⟩,
   ⟨[⟨1200, 1500, strEmpty⟩], 1140, 1740⟩]

/-- The first merged segment of the spec's merge scenario. -/
def c6seg0 : AdSeg := ⟨0, 9000, catSponsor, strEmpty⟩

/-- A two-object heap for the frame-property witness. -/
def heap0 : List (Addr × SegFields) :=
  [(0, ⟨0, 5000, catSponsor, strEmpty⟩), (1, ⟨4500, 9000, catSponsor, strEmpty⟩)]

/-! ## End of definitions marker (more definitions are inserted above) -/

/-! ## Lemmas about the merge walk -/

theorem mergeOut_nil (gap : Int) (o : AdSeg) : mergeOut gap o [] = [o] := rfl

theorem mergeOut_cons_absorb (gap : Int) (o c : AdSeg) (cs : List AdSeg)
    (h : c.start_ms ≤ o.end_ms + gap ∧ c.category = o.category) :
    mergeOut gap o (c :: cs) = mergeOut gap (absorbSeg o c) cs := by
  simp only [mergeOut, mergeStep, if_pos h]

theorem mergeOut_cons_push (gap : Int) (o c : AdSeg) (cs : List AdSeg)
    (h : ¬ (c.start_ms ≤ o.end_ms + gap ∧ c.category = o.category)) :
    mergeOut gap o (c :: cs) = o :: mergeOut gap c cs := by
  simp only [mergeOut, mergeStep, if_neg h]
  rfl

theorem absorbSeg_start (o c : AdSeg) : (absorbSeg o c).start_ms = o.start_ms := rfl

theorem absorbSeg_category (o c : AdSeg) : (absorbSeg o c).category = o.category := rfl

theorem mergeOut_head (gap : Int) :
    ∀ (l : List AdSeg) (o : AdSeg), ∃ h t, mergeOut gap o l = h :: t ∧
      h.start_ms = o.start_ms ∧ h.category = o.category
  | [], o => ⟨o, [], rfl, rfl, rfl⟩
  | c :: cs, o => by
    by_cases hc : c.start_ms ≤ o.end_ms + gap ∧ c.category = o.category
    · obtain ⟨h, t, he, hs, hcat⟩ := mergeOut_head gap cs (absorbSeg o c)
      exact ⟨h, t, (mergeOut_cons_absorb gap o c cs hc) ▸ he, hs, hcat⟩
    · exact ⟨o, mergeOut gap c cs, mergeOut_cons_push gap o c cs hc, rfl, rfl⟩

theorem sorted_absorb {o c : AdSeg} {cs : List AdSeg}
    (h : List.Sorted segLE (o :: c :: cs)) :
    List.Sorted segLE (absorbSeg o c :: cs) := by
  rw [List.sorted_cons] at h ⊢
  refine ⟨fun b hb => ?_, h.2.of_cons⟩
  exact h.1 b (List.mem_cons_of_mem c hb)

theorem mergeOut_lb (gap : Int) :
    ∀ (l : List AdSeg) (o : AdSeg), List.Sorted segLE (o :: l) →
      ∀ b ∈ mergeOut gap o l, o.start_ms ≤ b.start_ms
  | [], o, _, b, hb => by
    rw [mergeOut_nil] at hb
    simp only [List.mem_singleton] at hb
    exact hb ▸ le_refl _
  | c :: cs, o, hs, b, hb => by
    by_cases hc : c.start_ms ≤ o.end_ms + gap ∧ c.category = o.category
    · rw [mergeOut_cons_absorb gap o c cs hc] at hb
      exact mergeOut_lb gap cs (absorbSeg o c) (sorted_absorb hs) b hb
    · rw [mergeOut_cons_push gap o c cs hc] at hb
      rcases List.mem_cons.mp hb with h | h
      · exact h ▸ le_refl _
      · exact le_trans (List.rel_of_sorted_cons hs c (List.mem_cons_self c cs))
          (mergeOut_lb gap cs c hs.of_cons b h)

theorem mergeOut_sorted (gap : Int) :
    ∀ (l : List AdSeg) (o : AdSeg), List.Sorted segLE (o :: l) →
      List.Sorted segLE (mergeOut gap o l)
  | [], o, _ => by rw [mergeOut_nil]; exact List.sorted_singleton o
  | c :: cs, o, hs => by
    by_cases hc : c.start_ms ≤ o.end_ms + gap ∧ c.category = o.category
    · rw [mergeOut_cons_absorb gap o c cs hc]
      exact mergeOut_sorted gap cs (absorbSeg o c) (sorted_absorb hs)
    · rw [mergeOut_cons_push gap o c cs hc]
      rw [List.sorted_cons]
      refine ⟨fun b hb => ?_, mergeOut_sorted gap cs c hs.of_cons⟩
      exact le_trans (List.rel_of_sorted_cons hs c (List.mem_cons_self c cs))
        (mergeOut_lb gap cs c hs.of_cons b hb)

theorem mergeOut_chain (gap : Int) :
    ∀ (l : List AdSeg) (o : AdSeg), List.Sorted segLE (o :: l) →
      List.Chain' (sepBy gap) (mergeOut gap o l)
  | [], o, _ => by rw [mergeOut_nil]; exact List.chain'_singleton o
  | c :: cs, o, hs => by
    by_cases hc : c.start_ms ≤ o.end_ms + gap ∧ c.category = o.category
    · rw [mergeOut_cons_absorb gap o c cs hc]
      exact mergeOut_chain gap cs (absorbSeg o c) (sorted_absorb hs)
    · rw [mergeOut_cons_push gap o c cs hc]
      obtain ⟨h, t, he, hstart, hcat⟩ := mergeOut_head gap cs c
      rw [he]
      refine List.Chain'.cons ?_ (he ▸ mergeOut_chain gap cs c hs.of_cons)
      intro hoc
      have hcat' : c.category = o.category := hcat ▸ hoc.symm
      have : ¬ c.start_ms ≤ o.end_ms + gap := fun hle => hc ⟨hle, hcat'⟩
      rw [hstart]
      exact lt_of_not_le this

theorem mergeAdSegments_nil (gap : Int) : mergeAdSegments [] gap = [] := rfl

theorem mergeAdSegments_eq_mergeOut {segs : List AdSeg} {gap : Int} {s : AdSeg}
    {rest : List AdSeg} (h : List.insertionSort segLE segs = s :: rest) :
    mergeAdSegments segs gap = mergeOut gap s rest := by
  unfold mergeAdSegments
  rw [h]
  rfl

theorem mergeAdSegments_sorted (segs : List AdSeg) (gap : Int) :
    List.Sorted segLE (mergeAdSegments segs gap) := by
  cases h : List.insertionSort segLE segs with
  | nil => unfold mergeAdSegments; rw [h]; exact List.sorted_nil
  | cons s rest =>
    rw [mergeAdSegments_eq_mergeOut h]
    exact mergeOut_sorted gap rest s (h ▸ List.sorted_insertionSort segLE segs)

theorem mergeAdSegments_chain (segs : List AdSeg) (gap : Int) :
    List.Chain' (sepBy gap) (mergeAdSegments segs gap) := by
  cases h : List.insertionSort segLE segs with
  | nil => unfold mergeAdSegments; rw [h]; exact List.chain'_nil
  | cons s rest =>
    rw [mergeAdSegments_eq_mergeOut h]
    exact mergeOut_chain gap rest s (h ▸ List.sorted_insertionSort segLE segs)

theorem sepBy_noAbsorb {gap : Int} {a b : AdSeg} (h : sepBy gap a b) : noAbsorb gap a b := by
  rintro ⟨hle, hcat⟩
  exact absurd hle (not_le_of_lt (h hcat.symm))

theorem mergeOut_of_noAbsorb (gap : Int) :
    ∀ (l : List AdSeg) (o : AdSeg), List.Chain' (noAbsorb gap) (o :: l) →
      mergeOut gap o l = o :: l
  | [], o, _ => rfl
  | c :: cs, o, h => by
    rw [List.chain'_cons] at h
    rw [mergeOut_cons_push gap o c cs h.1]
    rw [mergeOut_of_noAbsorb gap cs c h.2]

theorem mergeOut_provenance (gap : Int) :
    ∀ (l : List AdSeg) (o : AdSeg) (m : AdSeg), m ∈ mergeOut gap o l →
      (∃ a ∈ o :: l, a.category = m.category ∧ a.start_ms = m.start_ms) ∧
      (∃ b ∈ o :: l, b.category = m.category ∧ b.end_ms = m.end_ms)
  | [], o, m, hm => by
    rw [mergeOut_nil] at hm
    simp only [List.mem_singleton] at hm
    subst hm
    exact ⟨⟨m, List.mem_cons_self m [], rfl, rfl⟩, ⟨m, List.mem_cons_self m [], rfl, rfl⟩⟩
  | c :: cs, o, m, hm => by
    by_cases hc : c.start_ms ≤ o.end_ms + gap ∧ c.category = o.category
    · rw [mergeOut_cons_absorb gap o c cs hc] at hm
      obtain ⟨⟨a, ha, hacat, hastart⟩, ⟨b, hb, hbcat, hbend⟩⟩ :=
        mergeOut_provenance gap cs (absorbSeg o c) m hm
      constructor
      · rcases List.mem_cons.mp ha with h | h
        · subst h
          exact ⟨o, List.mem_cons_self o _, hacat, hastart⟩
        · exact ⟨a, List.mem_cons_of_mem o (List.mem_cons_of_mem c h), hacat, hastart⟩
      · rcases List.mem_cons.mp hb with h | h
        · subst h
          rcases max_choice o.end_ms c.end_ms with hmax | hmax
        -- the absorbed end is either the old open end or the candidate's
          · exact ⟨o, List.mem_cons_self o _, hbcat, by rw [← hbend]; exact hmax.symm⟩
          · refine ⟨c, List.mem_cons_of_mem o (List.mem_cons_self c cs), ?_, ?_⟩
            · rw [← hbcat]; exact hc.2
            · rw [← hbend]; exact hmax.symm
        · exact ⟨b, List.mem_cons_of_mem o (List.mem_cons_of_mem c h), hbcat, hbend⟩
    · rw [mergeOut_cons_push gap o c cs hc] at hm
      rcases List.mem_cons.mp hm with h | h
      · subst h
        exact ⟨⟨m, List.mem_cons_self m _, rfl, rfl⟩, ⟨m, List.mem_cons_self m _, rfl, rfl⟩⟩
      · obtain ⟨⟨a, ha, h1, h2⟩, ⟨b, hb, h3, h4⟩⟩ := mergeOut_provenance gap cs c m h
        exact ⟨⟨a, List.mem_cons_of_mem o ha, h1, h2⟩, ⟨b, List.mem_cons_of_mem o hb, h3, h4⟩⟩

/-! ## Lemmas about the URL model -/

theorem breakAt_eq_append (stop : Char → Bool) :
    ∀ l : List Char, (breakAt stop l).1 ++ (breakAt stop l).2 = l
  | [] => rfl
  | c :: cs => by
    by_cases h : stop c
    · simp [breakAt, h]
    · simp [breakAt, h, breakAt_eq_append stop cs]

theorem breakAt_fst_all (stop : Char → Bool) :
    ∀ l : List Char, ∀ c ∈ (breakAt stop l).1, stop c = false
  | [] => by simp [breakAt]
  | c :: cs => by
    by_cases h : stop c
    · simp [breakAt, h]
    · simp only [breakAt, if_neg h]
      intro x hx
      rcases List.mem_cons.mp hx with rfl | hx
      · exact Bool.eq_false_iff.mpr h
      · exact breakAt_fst_all stop cs x hx

theorem breakAt_snd_shape (stop : Char → Bool) :
    ∀ l : List Char, (breakAt stop l).2 = [] ∨
      ∃ y t, (breakAt stop l).2 = y :: t ∧ stop y = true
  | [] => Or.inl rfl
  | c :: cs => by
    by_cases h : stop c
    · exact Or.inr ⟨c, cs, by simp [breakAt, h], h⟩
    · simpa [breakAt, h] using breakAt_snd_shape stop cs

theorem breakAt_append (stop : Char → Bool) :
    ∀ (xs ys : List Char), (∀ c ∈ xs, stop c = false) →
      (ys = [] ∨ ∃ y t, ys = y :: t ∧ stop y = true) →
      breakAt stop (xs ++ ys) = (xs, ys)
  | [], ys, _, hys => by
    rcases hys with rfl | ⟨y, t, rfl, hy⟩
    · rfl
    · simp [breakAt, hy]
  | x :: xs, ys, hxs, hys => by
    have hx : stop x = false := hxs x (List.mem_cons_self x xs)
    have ih := breakAt_append stop xs ys (fun c hc => hxs c (List.mem_cons_of_mem x hc)) hys
    have step : breakAt stop (x :: (xs ++ ys)) =
        (x :: (breakAt stop (xs ++ ys)).1, (breakAt stop (xs ++ ys)).2) := by
      simp [breakAt, hx]
    rw [List.cons_append, step, ih]

theorem schemeChar_not_colon {c : Char} (h : isSchemeChar c = true) : (c == ':') = false := by
  rcases Bool.eq_false_or_eq_true (c == ':') with ht | hf
  · rw [beq_iff_eq] at ht
    subst ht
    exact absurd h (by decide)
  · exact hf

theorem parseAfterPath_fields {scheme auth path rest4 : List Char} {p : UrlParts}
    (h : parseAfterPath scheme auth path rest4 = some p) :
    p.scheme = scheme ∧ p.authority = auth ∧ p.path = path := by
  unfold parseAfterPath at h
  split at h
  · injection h with h
    subst h
    exact ⟨rfl, rfl, rfl⟩
  · unfold parseQuery at h
    split at h
    · injection h with h
      subst h
      exact ⟨rfl, rfl, rfl⟩
    · injection h with h
      subst h
      exact ⟨rfl, rfl, rfl⟩
  · injection h with h
    subst h
    exact ⟨rfl, rfl, rfl⟩
  · exact absurd h (by simp)

theorem breakAt_path_head (rest2 : List Char) :
    (breakAt pathStop (breakAt authStop rest2).2).1 = [] ∨
    ∃ r, (breakAt pathStop (breakAt authStop rest2).2).1 = '/' :: r := by
  cases hp : (breakAt pathStop (breakAt authStop rest2).2).1 with
  | nil => exact Or.inl rfl
  | cons y r =>
    refine Or.inr ⟨r, ?_⟩
    have hpeq := breakAt_eq_append pathStop (breakAt authStop rest2).2
    rcases breakAt_snd_shape authStop rest2 with hnil | ⟨z, t, hzt, hz⟩
    · rw [hp, hnil] at hpeq
      exact absurd hpeq (by simp)
    · rw [hp, hzt] at hpeq
      have hy : y = z := by
        have := congrArg List.head? hpeq
        simpa using this
      have hyp : pathStop y = false := by
        have hm : y ∈ (breakAt pathStop (breakAt authStop rest2).2).1 := by
          rw [hp]
          exact List.mem_cons_self y r
        exact breakAt_fst_all pathStop _ y hm
      have hslash : y = '/' := by
        subst hy
        simp only [authStop, Bool.or_eq_true, beq_iff_eq] at hz
        simp only [pathStop, Bool.or_eq_false_iff, beq_eq_false_iff_ne] at hyp
        rcases hz with (h1 | h1) | h1
        · exact h1
        · exact absurd h1 hyp.1
        · exact absurd h1 hyp.2
      rw [hslash]

theorem parseUrl_wf {s : List Char} {p : UrlParts} (h : parseUrl s = some p) : UrlWf p := by
  unfold parseUrl parseFromRest at h
  split at h
  case _ rest2 heq =>
    split at h
    · exact absurd h (by simp)
    case _ hguard =>
      unfold parseAuth at h
      split at h
      · exact absurd h (by simp)
      case _ hauth =>
        unfold parsePath at h
        obtain ⟨h1, h2, h3⟩ := parseAfterPath_fields h
        push_neg at hguard
        refine ⟨h1 ▸ hguard.1, ?_, h2 ▸ hauth, ?_, ?_, ?_⟩
        · rw [h1]
          rcases Bool.eq_false_or_eq_true
            ((breakAt (fun c => c == ':') s).1.all isSchemeChar) with ht | hf
          · exact ht
          · exact absurd hf hguard.2
        · rw [h2]
          exact breakAt_fst_all authStop rest2
        · rw [h3]
          exact breakAt_fst_all pathStop _
        · rw [h3]
          exact breakAt_path_head rest2
  case _ =>
    exact absurd h (by simp)

theorem parseFromRest_cons (scheme rest2 : List Char) :
    parseFromRest scheme (':' :: '/' :: '/' :: rest2) =
      if scheme = [] ∨ scheme.all isSchemeChar = false then none
      else parseAuth scheme rest2 := rfl

theorem parseAfterPath_nil (scheme auth path : List Char) :
    parseAfterPath scheme auth path [] = some ⟨scheme, auth, path, none, none⟩ := rfl

theorem parseAfterPath_hash (scheme auth path f : List Char) :
    parseAfterPath scheme auth path ('#' :: f) = some ⟨scheme, auth, path, none, some f⟩ := rfl

theorem parse_serialize {p : UrlParts} (hwf : UrlWf p) (hq : p.query = none) :
    parseUrl (serializeUrl p) = some p := by
  obtain ⟨sc, au, pa, q, fr⟩ := p
  obtain ⟨hs_ne, hs_all, ha_ne, ha_chars, hp_chars, hp_head⟩ := hwf
  simp only at hq hs_ne hs_all ha_ne ha_chars hp_chars hp_head
  subst hq
  have hsc : ∀ c ∈ sc, (fun c => c == ':') c = false := fun c hc =>
    schemeChar_not_colon (List.all_eq_true.mp hs_all c hc)
  have hguard : ¬ (sc = [] ∨ sc.all isSchemeChar = false) := by
    rintro (h | h)
    · exact hs_ne h
    · rw [h] at hs_all
      exact Bool.false_ne_true hs_all
  have hpa_shape : ∀ tail : List Char,
      (tail = [] ∨ ∃ y t, tail = y :: t ∧ authStop y = true) →
      (pa ++ tail = [] ∨ ∃ y t, pa ++ tail = y :: t ∧ authStop y = true) := by
    intro tail htail
    rcases hp_head with hnil | ⟨r, hr⟩
    · rw [hnil, List.nil_append]
      exact htail
    · rw [hr]
      exact Or.inr ⟨'/', r ++ tail, by simp, by decide⟩
  cases fr with
  | none =>
    have e1 : breakAt (fun c => c == ':') (sc ++ (':' :: '/' :: '/' :: (au ++ pa))) =
        (sc, ':' :: '/' :: '/' :: (au ++ pa)) :=
      breakAt_append _ sc _ hsc (Or.inr ⟨':', _, rfl, by decide⟩)
    have e2 : breakAt authStop (au ++ pa) = (au, pa) :=
      breakAt_append _ au pa ha_chars (by
        have := hpa_shape [] (Or.inl rfl)
        rwa [List.append_nil] at this)
    have e3 : breakAt pathStop pa = (pa, []) := by
      have := breakAt_append pathStop pa [] hp_chars (Or.inl rfl)
      rwa [List.append_nil] at this
    have hser : serializeUrl ⟨sc, au, pa, none, none⟩ =
        sc ++ (':' :: '/' :: '/' :: (au ++ pa)) := by
      simp [serializeUrl]
    unfold parseUrl
    rw [hser, e1]
    rw [parseFromRest_cons, if_neg hguard]
    unfold parseAuth
    rw [e2]
    rw [if_neg ha_ne]
    unfold parsePath
    rw [e3]
    exact parseAfterPath_nil sc au pa
  | some f =>
    have e1 : breakAt (fun c => c == ':')
        (sc ++ (':' :: '/' :: '/' :: (au ++ (pa ++ '#' :: f)))) =
        (sc, ':' :: '/' :: '/' :: (au ++ (pa ++ '#' :: f))) :=
      breakAt_append _ sc _ hsc (Or.inr ⟨':', _, rfl, by decide⟩)
    have e2 : breakAt authStop (au ++ (pa ++ '#' :: f)) = (au, pa ++ '#' :: f) :=
      breakAt_append _ au _ ha_chars
        (hpa_shape ('#' :: f) (Or.inr ⟨'#', f, rfl, by decide⟩))
    have e3 : breakAt pathStop (pa ++ '#' :: f) = (pa, '#' :: f) :=
      breakAt_append pathStop pa _ hp_chars (Or.inr ⟨'#', f, rfl, by decide⟩)
    have hser : serializeUrl ⟨sc, au, pa, none, some f⟩ =
        sc ++ (':' :: '/' :: '/' :: (au ++ (pa ++ '#' :: f))) := by
      simp [serializeUrl]
    unfold parseUrl
    rw [hser, e1]
    rw [parseFromRest_cons, if_neg hguard]
    unfold parseAuth
    rw [e2]
    rw [if_neg ha_ne]
    unfold parsePath
    rw [e3]
    exact parseAfterPath_hash sc au pa f

theorem clearQuery_wf {p : UrlParts} (h : UrlWf p) : UrlWf (clearQuery p) := h

theorem clearQuery_clearQuery (p : UrlParts) : clearQuery (clearQuery p) = clearQuery p := rfl

theorem toList_mk (l : List Char) : (String.mk l).toList = l := rfl

theorem normalizeUrl_of_parse {u : String} {p : UrlParts} (h : parseUrl u.toList = some p) :
    normalizeUrl u = String.mk (serializeUrl (clearQuery p)) := by
  unfold normalizeUrl
  rw [h]

theorem normalizeUrl_of_fail {u : String} (h : parseUrl u.toList = none) :
    normalizeUrl u = u := by
  unfold normalizeUrl
  rw [h]

theorem normalizeUrl_parses {u : String} {p : UrlParts} (h : parseUrl u.toList = some p) :
    parseUrl (normalizeUrl u).toList = some (clearQuery p) := by
  rw [normalizeUrl_of_parse h, toList_mk]
  exact parse_serialize (clearQuery_wf (parseUrl_wf h)) rfl

theorem normalizeUrl_idem (u : String) : normalizeUrl (normalizeUrl u) = normalizeUrl u := by
  cases h : parseUrl u.toList with
  | none =>
    rw [normalizeUrl_of_fail h, normalizeUrl_of_fail h]
  | some p =>
    rw [normalizeUrl_of_parse h, normalizeUrl_of_parse (u := String.mk _)
      (by rw [toList_mk]; exact parse_serialize (clearQuery_wf (parseUrl_wf h)) rfl)]
    rw [clearQuery_clearQuery]

theorem sameUpToQuery_normalize {u v : String} (h : sameUpToQuery u v = true) :
    normalizeUrl u = normalizeUrl v := by
  unfold sameUpToQuery at h
  split at h
  case _ a b hu hv =>
    simp only [Bool.and_eq_true, beq_iff_eq] at h
    obtain ⟨⟨⟨h1, h2⟩, h3⟩, h4⟩ := h
    rw [normalizeUrl_of_parse hu, normalizeUrl_of_parse hv]
    obtain ⟨s1, a1, p1, q1, f1⟩ := a
    obtain ⟨s2, a2, p2, q2, f2⟩ := b
    simp only at h1 h2 h3 h4
    subst h1
    subst h2
    subst h3
    subst h4
    rfl
  case _ =>
    exact absurd h (by simp)

/-! ## Lemmas about the heap-level merge -/

theorem hGet_cons_ne {h : List (Addr × SegFields)} {b : Addr} {v : SegFields} {a : Addr}
    (hne : b ≠ a) : hGet ((b, v) :: h) a = hGet h a := by
  simp [hGet, hne]

theorem hGet_hSet_ne {a b : Addr} (hne : b ≠ a) :
    ∀ h : List (Addr × SegFields), ∀ v, hGet (hSet h b v) a = hGet h a
  | [], _ => rfl
  | p :: t, v => by
    by_cases hp : p.1 = b
    · simp only [hSet, if_pos hp, hGet]
      rw [if_neg hne, if_neg (hp ▸ hne)]
    · simp only [hSet, if_neg hp, hGet]
      by_cases hpa : p.1 = a
      · rw [if_pos hpa, if_pos hpa]
      · rw [if_neg hpa, if_neg hpa]
        exact hGet_hSet_ne hne t v

theorem opLoop_frame (gap : Int) :
    ∀ (l : List Addr) (h : List (Addr × SegFields)) (n : Nat) (front : List Addr)
      (lastA : Addr) (B : Nat), B ≤ n → B ≤ lastA →
      ∀ a, a < B → hGet (opLoop gap l h n front lastA).1 a = hGet h a
  | [], _, _, _, _, _, _, _, _, _ => rfl
  | c :: cs, h, n, front, lastA, B, hBn, hBl, a, haB => by
    show hGet (opLoop gap (c :: cs) h n front lastA).1 a = hGet h a
    unfold opLoop
    by_cases hc : (fieldsAt h c).start_ms ≤ (fieldsAt h lastA).end_ms + gap ∧
        (fieldsAt h c).category = (fieldsAt h lastA).category
    · rw [if_pos hc]
      rw [opLoop_frame gap cs (hSet h lastA (absorbF (fieldsAt h lastA) (fieldsAt h c)))
        n front lastA B hBn hBl a haB]
      exact hGet_hSet_ne (Nat.ne_of_gt (lt_of_lt_of_le haB hBl)) h _
    · rw [if_neg hc]
      rw [opLoop_frame gap cs ((n, fieldsAt h c) :: h) (n + 1) (front ++ [lastA]) n B
        (le_trans hBn (Nat.le_succ n)) hBn a haB]
      exact hGet_cons_ne (Nat.ne_of_gt (lt_of_lt_of_le haB hBn))

theorem opMerge_frame (gap : Int) (input : List Addr) (h : List (Addr × SegFields)) (n : Nat)
    (hin : ∀ a ∈ input, a < n) :
    ∀ a ∈ input, hGet (opMerge gap input h n).1 a = hGet h a := by
  intro a ha
  unfold opMerge
  cases hs : sortIds h input with
  | nil => rfl
  | cons s rest =>
    rw [opLoop_frame gap rest ((n, fieldsAt h s) :: h) (n + 1) [] n n
      (Nat.le_succ n) (le_refl n) a (hin a ha)]
    exact hGet_cons_ne (Nat.ne_of_gt (hin a ha))

/-! ## Lemmas about the jobs map -/

theorem jobsFind_jobsSet :
    ∀ (l : List (String × Job)) (k : String) (v : Job), jobsFind (jobsSet l k v) k = some v
  | [], k, v => by simp [jobsSet, jobsFind, List.find?]
  | p :: t, k, v => by
    by_cases hp : p.1 = k
    · simp [jobsSet, if_pos hp, jobsFind, List.find?]
    · simp only [jobsSet, if_neg hp]
      have : (p.1 == k) = false := by
        rw [beq_eq_false_iff_ne]
        exact hp
      simp only [jobsFind, List.find?, this]
      exact jobsFind_jobsSet t k v

theorem jobsSet_length_of_absent :
    ∀ (l : List (String × Job)) (k : String) (v : Job), jobsFind l k = none →
      (jobsSet l k v).length = l.length + 1
  | [], _, _, _ => rfl
  | p :: t, k, v, h => by
    by_cases hp : p.1 = k
    · exfalso
      simp [jobsFind, List.find?, hp] at h
    · have : (p.1 == k) = false := by
        rw [beq_eq_false_iff_ne]
        exact hp
      simp only [jobsFind, List.find?, this] at h
      simp only [jobsSet, if_neg hp, List.length_cons]
      rw [jobsSet_length_of_absent t k v h]

/-! ## Lemmas about the pipeline -/

theorem pipelineCore_download_error {env : PipelineEnv} {m : String}
    (h : env.download = .error m) : pipelineCore env = .error m := by
  unfold pipelineCore
  rw [h]

theorem pipelineCore_split_error {env : PipelineEnv} {m : String} {d : DlResult}
    (hd : env.download = .ok d) (h : env.split = .error m) : pipelineCore env = .error m := by
  unfold pipelineCore
  rw [hd, h]

theorem transcribeChunks_error_at (transcribe : String → Except String TranscriptionRes) :
    ∀ (pre : List String) (c : String) (post : List String) (acc : TranscriptionRes)
      (off : Int) (m : String), (∀ p ∈ pre, ∃ v, transcribe p = .ok v) →
      transcribe c = .error m →
      transcribeChunks transcribe (pre ++ c :: post) acc off = .error m
  | [], c, post, acc, off, m, _, hc => by
    simp only [List.nil_append, transcribeChunks, hc]
  | p :: pre, c, post, acc, off, m, hpre, hc => by
    obtain ⟨v, hv⟩ := hpre p (List.mem_cons_self p pre)
    simp only [List.cons_append, transcribeChunks, hv]
    exact transcribeChunks_error_at transcribe pre c post _ _ m
      (fun q hq => hpre q (List.mem_cons_of_mem p hq)) hc

theorem pipelineCore_transcribe_error {env : PipelineEnv} {m : String} {d : DlResult}
    {pre : List String} {c : String} {post : List String}
    (hd : env.download = .ok d) (hs : env.split = .ok (pre ++ c :: post))
    (hpre : ∀ p ∈ pre, ∃ v, env.transcribe p = .ok v)
    (hc : env.transcribe c = .error m) : pipelineCore env = .error m := by
  unfold pipelineCore
  rw [hd, hs]
  dsimp only
  rw [transcribeChunks_error_at env.transcribe pre c post ⟨strEmpty, []⟩ 0 m hpre hc]

theorem pipelineCore_detect_error {env : PipelineEnv} {m : String} {d : DlResult}
    {chunks : List String} {full : TranscriptionRes}
    (hd : env.download = .ok d) (hs : env.split = .ok chunks)
    (ht : transcribeChunks env.transcribe chunks ⟨strEmpty, []⟩ 0 = .ok full)
    (hdet : env.detect = .error m) : pipelineCore env = .error m := by
  unfold pipelineCore
  rw [hd, hs]
  dsimp only
  rw [ht]
  dsimp only
  rw [hdet]

theorem runPipeline_error {st : ServerState} {jobId url : String} {env : PipelineEnv}
    {finTime : Nat} {m : String} (h : pipelineCore env = .error m) :
    (runPipeline st jobId url env finTime).cache = st.cache ∧
    (runPipeline st jobId url env finTime).requested = st.requested ∧
    jobsFind (runPipeline st jobId url env finTime).jobs jobId =
      some ⟨.error, url, ((jobsFind st.jobs jobId).map Job.startedAt).getD 0,
        some finTime, none, some m⟩ := by
  unfold runPipeline
  rw [h]
  exact ⟨rfl, rfl, jobsFind_jobsSet st.jobs jobId _⟩

/-! ## Lemmas about the window planner loop -/

theorem splitLoop_stop {segments : List TSeg} {w ov lastEnd : Int} {fuel : Nat} {t : Int}
    (h : ¬ t < lastEnd) : splitLoop segments w ov lastEnd (fuel + 1) t = some [] := by
  simp only [splitLoop]
  rw [if_neg h]

theorem splitLoop_empty {segments : List TSeg} {w ov lastEnd : Int} {fuel : Nat} {t : Int}
    (h : t < lastEnd)
    (he : segments.filter (fun seg => decide (t ≤ seg.start ∧ seg.start < t + w)) = []) :
    splitLoop segments w ov lastEnd (fuel + 1) t = some [] := by
  simp only [splitLoop]
  rw [if_pos h, if_pos he]

theorem splitLoop_final {segments : List TSeg} {w ov lastEnd : Int} {fuel : Nat} {t : Int}
    (h : t < lastEnd)
    (he : ¬ segments.filter (fun seg => decide (t ≤ seg.start ∧ seg.start < t + w)) = [])
    (hend : lastEnd ≤ t + w) :
    splitLoop segments w ov lastEnd (fuel + 1) t =
      some [⟨segments.filter (fun seg => decide (t ≤ seg.start ∧ seg.start < t + w)), t, t + w⟩] := by
  simp only [splitLoop]
  rw [if_pos h, if_neg he, if_pos hend]

theorem splitLoop_step {segments : List TSeg} {w ov lastEnd : Int} {fuel : Nat} {t : Int}
    (h : t < lastEnd)
    (he : ¬ segments.filter (fun seg => decide (t ≤ seg.start ∧ seg.start < t + w)) = [])
    (hend : ¬ lastEnd ≤ t + w) :
    splitLoop segments w ov lastEnd (fuel + 1) t =
      (splitLoop segments w ov lastEnd fuel (t + w - ov)).map
        (fun rest =>
          ⟨segments.filter (fun seg => decide (t ≤ seg.start ∧ seg.start < t + w)), t, t + w⟩ :: rest) := by
  simp only [splitLoop]
  rw [if_pos h, if_neg he, if_neg hend]

theorem splitLoop_props (segments : List TSeg) (w ov lastEnd : Int) (hov : 0 ≤ ov) :
    ∀ (fuel : Nat) (t : Int) (chunks : List Chunk),
      splitLoop segments w ov lastEnd fuel t = some chunks →
      (∀ c ∈ chunks, c.endTime = c.startTime + w) ∧
      (∀ c, chunks.head? = some c → c.startTime = t) ∧
      List.Chain' (chainStep ov) chunks ∧
      (∀ x clast, chunks.getLast? = some clast → t ≤ x → x < clast.endTime →
        ∃ c ∈ chunks, c.startTime ≤ x ∧ x < c.endTime)
  | 0, t, chunks, h => absurd h (by simp [splitLoop])
  | fuel + 1, t, chunks, h => by
    by_cases h1 : t < lastEnd
    · by_cases h2 : segments.filter (fun seg => decide (t ≤ seg.start ∧ seg.start < t + w)) = []
      · rw [splitLoop_empty h1 h2] at h
        injection h with h
        subst h
        exact ⟨by simp, by simp, List.chain'_nil, by simp⟩
      · by_cases h3 : lastEnd ≤ t + w
        · rw [splitLoop_final h1 h2 h3] at h
          injection h with h
          subst h
          refine ⟨?_, ?_, List.chain'_singleton _, ?_⟩
          · intro c hc
            rw [List.mem_singleton] at hc
            subst hc
            rfl
          · intro c hc
            simp only [List.head?_cons, Option.some.injEq] at hc
            subst hc
            rfl
          · intro x clast hlast hx hxe
            simp only [List.getLast?_singleton, Option.some.injEq] at hlast
            subst hlast
            exact ⟨_, List.mem_singleton_self _, hx, hxe⟩
        · rw [splitLoop_step h1 h2 h3] at h
          cases hrec : splitLoop segments w ov lastEnd fuel (t + w - ov) with
          | none =>
            rw [hrec] at h
            exact absurd h (by simp)
          | some rest =>
            rw [hrec] at h
            simp only [Option.map_some', Option.some.injEq] at h
            subst h
            obtain ⟨ih1, ih2, ih3, ih4⟩ :=
              splitLoop_props segments w ov lastEnd hov fuel (t + w - ov) rest hrec
            refine ⟨?_, ?_, ?_, ?_⟩
            · intro c hc
              rcases List.mem_cons.mp hc with hc | hc
              · subst hc
                rfl
              · exact ih1 c hc
            · intro c hc
              simp only [List.head?_cons, Option.some.injEq] at hc
              subst hc
              rfl
            · refine List.chain'_cons'.mpr ⟨?_, ih3⟩
              intro y hy
              have hy' : rest.head? = some y := hy
              have := ih2 y hy'
              show y.startTime = _
              rw [this]
            · intro x clast hlast hx hxe
              cases rest with
              | nil =>
                simp only [List.getLast?_singleton, Option.some.injEq] at hlast
                subst hlast
                exact ⟨_, List.mem_cons_self _ _, hx, hxe⟩
              | cons r rs =>
                rw [List.getLast?_cons_cons] at hlast
                by_cases hxw : x < t + w
                · exact ⟨_, List.mem_cons_self _ _, hx, hxw⟩
                · have hge : t + w - ov ≤ x := by omega
                  obtain ⟨c, hc, hc1, hc2⟩ := ih4 x clast hlast hge hxe
                  exact ⟨c, List.mem_cons_of_mem _ hc, hc1, hc2⟩
    · rw [splitLoop_stop h1] at h
      injection h with h
      subst h
      exact ⟨by simp, by simp, List.chain'_nil, by simp⟩

/-! ## Lemmas about the analyze handlers -/

theorem part0_predicate_iff (url : String) (j : Job) :
    ((match parseUrl j.url.toList with
      | some p => decide (String.mk (serializeUrl (clearQuery p)) = normalizeUrl url ∧
          j.status = JobStatus.running)
      | none => decide (j.url = url ∧ j.status = JobStatus.running)) = true) ↔
      (normalizeUrl j.url = normalizeUrl url ∧ j.status = JobStatus.running) := by
  cases hj : parseUrl j.url.toList with
  | some p =>
    simp only [decide_eq_true_eq]
    rw [normalizeUrl_of_parse hj]
  | none =>
    simp only [decide_eq_true_eq]
    rw [normalizeUrl_of_fail hj]
    constructor
    · rintro ⟨h1, h2⟩
      subst h1
      exact ⟨(normalizeUrl_of_fail hj).symm, h2⟩
    · rintro ⟨h1, h2⟩
      refine ⟨?_, h2⟩
      cases hu : parseUrl url.toList with
      | none =>
        rw [normalizeUrl_of_fail hu] at h1
        exact h1
      | some q =>
        exfalso
        have hp := normalizeUrl_parses hu
        rw [← h1] at hp
        rw [hj] at hp
        exact Option.noConfusion hp

/-- Fixed points of the merge: a sorted list in which no consecutive
pair can be absorbed is returned unchanged. -/
theorem mergeAdSegments_of_fixed {l : List AdSeg} {gap : Int}
    (hs : List.Sorted segLE l) (hna : List.Chain' (noAbsorb gap) l) :
    mergeAdSegments l gap = l := by
  cases l with
  | nil => rfl
  | cons s rest =>
    rw [mergeAdSegments_eq_mergeOut hs.insertionSort_eq]
    exact mergeOut_of_noAbsorb gap rest s hna

/-! ## The claims -/

/-- C1 (amended): a processing-start request for an uncached url never
consults the job registry: it creates a fresh running job and answers
with the new job id unconditionally, so while a run with the same
normalized identity is still running, a second run is created (the
original claim, that the second request creates no run and is told
analysis is already in progress, is refuted by `claim_C1_cex`). -/
theorem claim_C1 (st : ServerState) (url jobId : String) (now : Nat)
    (hurl : url ≠ strEmpty) (hcache : getPodcastByUrl st.cache url = none) :
    processPost st url jobId now =
      (.started jobId,
        { st with jobs := jobsSet st.jobs jobId ⟨.running, url, now, none, none, none⟩ }) ∧
    (jobsFind st.jobs jobId = none →
      (processPost st url jobId now).2.jobs.length = st.jobs.length + 1) := by
  have h1 : processPost st url jobId now =
      (.started jobId,
        { st with jobs := jobsSet st.jobs jobId ⟨.running, url, now, none, none, none⟩ }) := by
    unfold processPost
    rw [if_neg hurl, hcache]
  refine ⟨h1, fun habs => ?_⟩
  rw [h1]
  exact jobsSet_length_of_absent st.jobs jobId _ habs

/-- C1 counterexample: with a running job for `urlA` and no cache entry,
a second /process request for `urlB` (same normalized identity) is
answered `started` with a fresh job id and the registry grows to two
jobs — not an already-in-progress indication. -/
theorem claim_C1_cex :
    normalizeUrl urlA = normalizeUrl urlB ∧
    getPodcastByUrl st1.cache urlB = none ∧
    (∃ kj ∈ st1.jobs, normalizeUrl kj.2.url = normalizeUrl urlB ∧
      kj.2.status = JobStatus.running) ∧
    (processPost st1 urlB jid2 7).1 = .started jid2 ∧
    (processPost st1 urlB jid2 7).2.jobs.length = 2 := by decide

/-- C1 witness: the amended theorem applied at the concrete state. -/
theorem claim_C1_witness :
    (processPost st1 urlB jid2 7).2.jobs.length = st1.jobs.length + 1 :=
  (claim_C1 st1 urlB jid2 7 (by decide) (by decide)).2 (by decide)

/-- C2 (amended): the merge output is sorted ascending by `start_ms`,
and every pair of CONSECUTIVE output segments of one category is
separated by more than the gap tolerance (hence, for a nonnegative
tolerance, non-overlapping); the pairwise form over all same-category
pairs is refuted by `claim_C2_cex`. -/
theorem claim_C2 (allSegments : List AdSeg) (gap : Int) :
    List.Sorted segLE (mergeAdSegments allSegments gap) ∧
    List.Chain' (sepBy gap) (mergeAdSegments allSegments gap) ∧
    (0 ≤ gap → List.Chain' (fun a b => a.category = b.category → a.end_ms < b.start_ms)
      (mergeAdSegments allSegments gap)) := by
  refine ⟨mergeAdSegments_sorted allSegments gap, mergeAdSegments_chain allSegments gap, ?_⟩
  intro hg
  refine (mergeAdSegments_chain allSegments gap).imp ?_
  intro a b hab hcat
  have := hab hcat
  omega

/-- C2 counterexample: a merge output containing two distinct
same-category segments that overlap (they are not consecutive: a
different-category segment lies between them). -/
theorem claim_C2_cex :
    ∃ m1 ∈ mergeAdSegments c2cexInput 30000, ∃ m2 ∈ mergeAdSegments c2cexInput 30000,
      m1 ≠ m2 ∧ m1.category = m2.category ∧ m1.start_ms ≤ m2.start_ms ∧
      m2.start_ms < m1.end_ms := by decide

/-- C3 (amended): the planner's first window starts at 0, every window
ends exactly `windowSize` after it starts, each subsequent window starts
at the previous end minus the overlap, and every time point from 0 up to
the last emitted window's end is covered by some window; the final
window is NOT clipped to `totalDuration` — the 1500 s / 600 s / 30 s
scenario yields [0,600), [570,1170), [1140,1740) (refuting the claimed
[1140,1500), see `claim_C3_cex`). -/
theorem claim_C3 (segments : List TSeg) (w ov : Int) (chunks : List Chunk)
    (hov : 0 ≤ ov) (hc : splitIntoChunks segments w ov = some chunks) :
    (∀ c ∈ chunks, c.endTime = c.startTime + w) ∧
    (∀ c, chunks.head? = some c → c.startTime = 0) ∧
    List.Chain' (chainStep ov) chunks ∧
    (∀ x clast, chunks.getLast? = some clast → 0 ≤ x → x < clast.endTime →
      ∃ c ∈ chunks, c.startTime ≤ x ∧ x < c.endTime) ∧
    splitIntoChunks c3segs 600 30 = some c3chunks := by
  unfold splitIntoChunks at hc
  split at hc
  · exact absurd hc (by simp)
  case _ lastSeg heq =>
    obtain ⟨p1, p2, p3, p4⟩ := splitLoop_props segments w ov lastSeg.stop hov _ 0 chunks hc
    exact ⟨p1, p2, p3, p4, by decide⟩

/-- C3 counterexample: on the spec's scenario the final window is
[1140, 1740), not the claimed clipped [1140, 1500). -/
theorem claim_C3_cex :
    (splitIntoChunks c3segs 600 30).map (fun l => l.map fun c => (c.startTime, c.endTime)) ≠
      some [(0, 600), (570, 1170), (1140, 1500)] := by decide

/-- C3 witness: the amended theorem applied to the concrete scenario
(coverage of the time point 1200 by the unclipped final window). -/
theorem claim_C3_witness :
    ∃ c ∈ c3chunks, c.startTime ≤ 1200 ∧ (1200 : Int) < c.endTime :=
  (claim_C3 c3segs 600 30 c3chunks (by decide) (by decide)).2.2.2.1 1200
    ⟨[⟨1200, 1500, strEmpty⟩], 1140, 1740⟩ (by decide) (by decide) (by decide)

/-- C4 (confirmed): the merge is idempotent — merging an already merged
list with the same tolerance returns it unchanged, segment for segment. -/
theorem claim_C4 (allSegments : List AdSeg) (gap : Int) :
    mergeAdSegments (mergeAdSegments allSegments gap) gap =
      mergeAdSegments allSegments gap :=
  mergeAdSegments_of_fixed (mergeAdSegments_sorted allSegments gap)
    ((mergeAdSegments_chain allSegments gap).imp fun _ _ h => sepBy_noAbsorb h)

/-- C5 (confirmed): whichever stage fails first — download, splitting,
transcription of some chunk, or classification — the pipeline result is
that failure's message; and a failed pipeline leaves the result cache
and the requested list untouched and finishes the job as a terminal
error carrying exactly that message. -/
theorem claim_C5 (st : ServerState) (jobId url : String) (env : PipelineEnv)
    (finTime : Nat) (m : String) :
    (env.download = .error m → pipelineCore env = .error m) ∧
    (∀ d, env.download = .ok d → env.split = .error m → pipelineCore env = .error m) ∧
    (∀ d pre c post, env.download = .ok d → env.split = .ok (pre ++ c :: post) →
      (∀ p ∈ pre, ∃ v, env.transcribe p = .ok v) → env.transcribe c = .error m →
      pipelineCore env = .error m) ∧
    (∀ d chunks full, env.download = .ok d → env.split = .ok chunks →
      transcribeChunks env.transcribe chunks ⟨strEmpty, []⟩ 0 = .ok full →
      env.detect = .error m → pipelineCore env = .error m) ∧
    (pipelineCore env = .error m →
      (runPipeline st jobId url env finTime).cache = st.cache ∧
      (runPipeline st jobId url env finTime).requested = st.requested ∧
      jobsFind (runPipeline st jobId url env finTime).jobs jobId =
        some ⟨.error, url, ((jobsFind st.jobs jobId).map Job.startedAt).getD 0,
          some finTime, none, some m⟩) :=
  ⟨fun h => pipelineCore_download_error h,
   fun _ hd hs => pipelineCore_split_error hd hs,
   fun _ _ _ _ hd hs hpre hc => pipelineCore_transcribe_error hd hs hpre hc,
   fun _ _ _ hd hs ht hdet => pipelineCore_detect_error hd hs ht hdet,
   fun h => runPipeline_error h⟩

/-- C6 (confirmed): every merged segment takes its start bound and its
end bound from input segments of its own category (different categories
are never combined), and the spec's scenario merges to exactly the two
expected segments. -/
theorem claim_C6 (S : List AdSeg) (gap : Int) (m : AdSeg)
    (hm : m ∈ mergeAdSegments S gap) :
    ((∃ a ∈ S, a.category = m.category ∧ a.start_ms = m.start_ms) ∧
     (∃ b ∈ S, b.category = m.category ∧ b.end_ms = m.end_ms)) ∧
    mergeAdSegments c6input 30000 = c6expected := by
  refine ⟨?_, by decide⟩
  cases h : List.insertionSort segLE S with
  | nil =>
    unfold mergeAdSegments at hm
    rw [h] at hm
    exact absurd hm (by simp)
  | cons s rest =>
    rw [mergeAdSegments_eq_mergeOut h] at hm
    obtain ⟨⟨a, ha, h1, h2⟩, ⟨b, hb, h3, h4⟩⟩ := mergeOut_provenance gap rest s m hm
    have hsub : ∀ x ∈ s :: rest, x ∈ S := fun x hx =>
      (List.perm_insertionSort segLE S).subset (h ▸ hx)
    exact ⟨⟨a, hsub a ha, h1, h2⟩, ⟨b, hsub b hb, h3, h4⟩⟩

/-- C6 witness: the theorem applied to the first merged segment of the
spec's scenario. -/
theorem claim_C6_witness :
    (∃ a ∈ c6input, a.category = c6seg0.category ∧ a.start_ms = c6seg0.start_ms) ∧
    (∃ b ∈ c6input, b.category = c6seg0.category ∧ b.end_ms = c6seg0.end_ms) :=
  (claim_C6 c6input 30000 c6seg0 (by decide)).1

/-- C7 (confirmed): for EVERY locator string, the normalizer is
idempotent and total (parse failure returns the raw input unchanged);
and any two locators differing only in their query string normalize to
the same key. -/
theorem claim_C7 (u v : String) :
    normalizeUrl (normalizeUrl u) = normalizeUrl u ∧
    (parseUrl u.toList = none → normalizeUrl u = u) ∧
    (sameUpToQuery u v = true → normalizeUrl u = normalizeUrl v) :=
  ⟨normalizeUrl_idem u, fun h => normalizeUrl_of_fail h,
   fun huv => sameUpToQuery_normalize huv⟩

/-- C7 witness: the theorem applied to two token-differing locators. -/
theorem claim_C7_witness : normalizeUrl urlA = normalizeUrl urlB :=
  (claim_C7 urlA urlB).2.2 (by decide)

/-- C8 (amended): with no whitelist match and no cache entry, the
part_000 /analyze handler reports `analyzing = true` exactly when some
registry job is running with the same NORMALIZED identity as the
request url; the server.js /analyze handler instead compares job urls
byte for byte, so a query url differing from the in-flight run's url
only in its query string is reported as not analyzing there (refuting
the original claim, see `claim_C8_cex`). -/
theorem claim_C8 (wl : List WlHost) (st : ServerState) (url : String)
    (hurl : url ≠ strEmpty) (hwl : isWhitelisted wl url = none)
    (hcache : getPodcastByUrl st.cache url = none) :
    ((analyzePart0 wl st url).1 = .notAnalyzed true ↔
      ∃ kj ∈ st.jobs, normalizeUrl kj.2.url = normalizeUrl url ∧
        kj.2.status = JobStatus.running) ∧
    ((analyzeServer st url).1 = .notAnalyzed true ↔
      ∃ kj ∈ st.jobs, kj.2.url = url ∧ kj.2.status = JobStatus.running) := by
  constructor
  · unfold analyzePart0
    rw [if_neg hurl, hwl]
    dsimp only
    rw [hcache]
    dsimp only
    simp only [AnalyzeResp.notAnalyzed.injEq, List.find?_isSome]
    exact exists_congr fun kj => and_congr_right fun _ => part0_predicate_iff url kj.2
  · unfold analyzeServer
    rw [if_neg hurl]
    dsimp only
    rw [hcache]
    dsimp only
    simp only [AnalyzeResp.notAnalyzed.injEq, List.find?_isSome, decide_eq_true_eq]

/-- C8 counterexample: a running job for `urlA` and a query for `urlB`
(equal normalized identities, no cache entry): server.js reports
`analyzing = false`. -/
theorem claim_C8_cex :
    normalizeUrl urlA = normalizeUrl urlB ∧
    getPodcastByUrl st1.cache urlB = none ∧
    (∃ kj ∈ st1.jobs, normalizeUrl kj.2.url = normalizeUrl urlB ∧
      kj.2.status = JobStatus.running) ∧
    (analyzeServer st1 urlB).1 = .notAnalyzed false := by decide

/-- C8 witness: the amended theorem applied at the concrete state — the
part_000 handler does report the normalized-identical query as
analyzing. -/
theorem claim_C8_witness : (analyzePart0 [] st1 urlB).1 = .notAnalyzed true :=
  (claim_C8 [] st1 urlB (by decide) (by decide) (by decide)).1.mpr (by decide)

/-- C9 (confirmed): the merge never writes through its input references
— after `opMerge`, every input address still dereferences to its
original fields (mutations touch only addresses the merge allocated). -/
theorem claim_C9 (gap : Int) (input : List Addr) (h : List (Addr × SegFields)) (n : Nat)
    (hin : ∀ a ∈ input, a < n) :
    ∀ a ∈ input, hGet (opMerge gap input h n).1 a = hGet h a :=
  opMerge_frame gap input h n hin

/-- C9 witness: the theorem applied to a two-object heap whose segments
the merge coalesces. -/
theorem claim_C9_witness :
    hGet (opMerge 30000 [0, 1] heap0 2).1 1 = hGet heap0 1 :=
  claim_C9 30000 [0, 1] heap0 2 (by decide) 1 (by decide)

/-- C10 (confirmed): at or below the 24 MB threshold the splitter
returns the input path as the only chunk, performs no probe and creates
no files, and the cleanup step then deletes exactly the original
download. -/
theorem claim_C10 (inputPath : String) (sizeBytes totalDuration : Int)
    (hsize : sizeBytes ≤ 24 * (1024 * 1024)) :
    splitAudioIfNeeded inputPath sizeBytes totalDuration = ⟨[inputPath], false, []⟩ ∧
    cleanupDeletions (some inputPath)
      (splitAudioIfNeeded inputPath sizeBytes totalDuration).chunks = [inputPath] := by
  have h1 : splitAudioIfNeeded inputPath sizeBytes totalDuration = ⟨[inputPath], false, []⟩ := by
    unfold splitAudioIfNeeded
    rw [if_pos hsize]
  refine ⟨h1, ?_⟩
  rw [h1]
  simp [cleanupDeletions]

/-- C10 witness: the theorem applied to a small concrete file. -/
theorem claim_C10_witness :
    splitAudioIfNeeded mp3Path 1000000 300 = ⟨[mp3Path], false, []⟩ :=
  (claim_C10 mp3Path 1000000 300 (by decide)).1
